import Mathlib

/-!
Verification development for the kerchunk-cookbook repository.

The cookbook notebooks wire together an external single-source translator
(SingleHdf5ToZarr), a multi-source reference combiner (MultiZarrToZarr with
its append operation), and a lazy partitioned reference store
(LazyReferenceMapper).  The string manipulation that builds and reconstructs
reference-file names lives directly in the notebook cells and is embedded
here faithfully; the external combiner, translator and store are modelled
from the specification, as documented on each definition.
-/

/-! ## Python string primitives used by the notebook cells -/

/-- Models the left half of Python str.strip(chars): characters belonging to
the set `cs` are removed from the front of the string until a character
outside `cs` is met. -/
def pyLStrip (cs : List Char) : List Char → List Char
  | [] => []
  | c :: t => if c ∈ cs then pyLStrip cs t else c :: t

/-- Models the right half of Python str.strip(chars): characters belonging to
the set `cs` are removed from the back of the string until a character
outside `cs` is met. -/
def pyRStrip (cs : List Char) : List Char → List Char
  | [] => []
  | c :: t =>
    let r := pyRStrip cs t
    if r = [] then (if c ∈ cs then [] else [c]) else c :: r

/-- Models Python str.strip(chars): both ends are trimmed of characters that
belong to the set `cs`.  Note that Python treats the argument as a set of
characters, not as a suffix or a pattern. -/
def pyStrip (cs : List Char) (s : List Char) : List Char :=
  pyLStrip cs (pyRStrip cs s)

/-- Models Python str.split(sep) for a one-character separator: the string is
cut at every occurrence of `sep`, empty pieces included, and the result is
never empty. -/
def pySplit (sep : Char) : List Char → List (List Char)
  | [] => [[]]
  | c :: t =>
    match pySplit sep t with
    | [] => [[c]]
    | p :: ps => if c = sep then [] :: p :: ps else (c :: p) :: ps

/-- Models the Python indexing expression xs[-1] on the nonempty list
returned by split: the last piece is selected (and [] is returned on an
empty list, which split never produces). -/
def pyLast : List (List Char) → List Char
  | [] => []
  | [p] => p
  | _ :: p :: ps => pyLast (p :: ps)

/-- The character set passed to strip in the notebook cells, namely the three
characters of the literal ".nc". -/
def dotNC : List Char := ['.', 'n', 'c']

/-- The five characters of the literal ".json" appended to the output name in
generate_json_reference. -/
def dotJson : List Char := ['.', 'j', 's', 'o', 'n']

/-- Helper: the piece of a string after its last slash, equal to
pyLast (pySplit slash s); used to reason about the two orders in which the
notebook applies strip and split. -/
def afterLastSlash : List Char → List Char
  | [] => []
  | c :: t => if c = '/' then afterLastSlash t else if '/' ∈ t then afterLastSlash t else c :: t

/-! ## Data model of the multi-source combiner

Modelled from the spec: the combiner itself is an external library; the spec
describes a chunk reference as either an inline literal value or a triple of
source location, byte offset and byte length, a dataset-level index as array
metadata plus chunk references, and a combined index as the contiguously
renumbered concatenation of the sorted sources.  String-valued data (urls)
is carried as lists of characters and the dtype descriptor as a numeric
code. -/

/-- Modelled from the spec: one chunk reference, either an inline literal
value or a byte range (source location, byte offset, byte length) pointing
into an original file. -/
inductive RefVal where
  | inline (data : List Nat)
  | range (url : List Char) (offset : Nat) (byteLen : Nat)
deriving DecidableEq

/-- Modelled from the spec: a dataset-level index for one source, restricted
to one variable and one concatenation dimension.  It records the coordinate
value derived for the concatenation dimension via the coordinate mapping,
the shape along the identical dimensions, the dtype descriptor, and the
chunk references along the concatenation dimension in order. -/
structure Source where
  coord : Int
  ishape : List Nat
  dtype : Nat
  chunks : List RefVal
deriving DecidableEq

/-- Modelled from the spec: the structured errors a combine or append call
can surface. -/
inductive CombineError where
  | noSources
  | dimMismatch
  | orderingAmbiguity
deriving DecidableEq

/-- Modelled from the spec: a combined index.  Entries are keyed by the
global chunk index along the concatenation dimension and carry the derived
coordinate value and the chunk reference, so that downstream reads see both
the byte ranges and the coordinate mapping. -/
structure Combined where
  ishape : List Nat
  dtype : Nat
  entries : List (Nat × Int × RefVal)
deriving DecidableEq

/-- The chunk payloads contributed by a list of sources in order: each source
contributes its chunk references tagged with its derived coordinate value. -/
def chunkEntries : List Source → List (Int × RefVal)
  | [] => []
  | s :: ss => s.chunks.map (fun r => (s.coord, r)) ++ chunkEntries ss

/-- Keys a list of payloads with consecutive global chunk indices starting
at `start`. -/
def numberFrom (start : Nat) : List (Int × RefVal) → List (Nat × Int × RefVal)
  | [] => []
  | a :: as => (start, a) :: numberFrom (start + 1) as

/-- The list of the `n` consecutive naturals starting at `s`; the shape that
the chunk-index keys of a combined index must have for the index sequence to
have no gaps and no overlaps. -/
def keyRange (s : Nat) : Nat → List Nat
  | 0 => []
  | n + 1 => s :: keyRange (s + 1) n

/-- The chunk index immediately after the last chunk index present in a list
of combined-index entries, or zero when there are none. -/
def startIdx (entries : List (Nat × Int × RefVal)) : Nat :=
  match entries.getLast? with
  | none => 0
  | some e => e.1 + 1

/-- Inserts a source into a list kept ordered by derived coordinate value. -/
def insertByCoord (s : Source) : List Source → List Source
  | [] => [s]
  | t :: ts => if s.coord ≤ t.coord then s :: t :: ts else t :: insertByCoord s ts

/-- Modelled from the spec: sources are ordered along the concatenation
dimension by the coordinate value derived via the coordinate mapping
(insertion sort). -/
def sortByCoord : List Source → List Source
  | [] => []
  | s :: ss => insertByCoord s (sortByCoord ss)

/-- Modelled from the spec: the multi-source combine operation of the
external combiner.  Every source must declare identical shapes and dtypes
along the identical dimensions, two sources with the same derived coordinate
value are rejected rather than silently ordered, the sources are sorted by
derived coordinate, and the output chunk indices are renumbered contiguously
from zero along the concatenation dimension. -/
def MultiZarrToZarr.combine (sources : List Source) : Except CombineError Combined :=
  match sources with
  | [] => .error .noSources
  | s0 :: rest =>
    if ∀ s ∈ s0 :: rest, s.ishape = s0.ishape ∧ s.dtype = s0.dtype then
      if (((s0 :: rest).map (fun s => s.coord)).Nodup) then
        .ok { ishape := s0.ishape, dtype := s0.dtype,
              entries := numberFrom 0 (chunkEntries (sortByCoord (s0 :: rest))) }
      else .error .orderingAmbiguity
    else .error .dimMismatch

/-- Modelled from the spec: the append operation of the external combiner.
The identical dimensions of the new sources must match those recorded in the
original combined index, ties among the derived coordinates of the new
sources are rejected, the new sources are ordered by derived coordinate and
their chunk indices are offset to continue immediately after the last chunk
index present in the original combined index, regardless of whether their
coordinate values are contiguous with the original ones. -/
def MultiZarrToZarr.append (newSources : List Source) (original : Combined) : Except CombineError Combined :=
  if ∀ s ∈ newSources, s.ishape = original.ishape ∧ s.dtype = original.dtype then
    if ((newSources.map (fun s => s.coord)).Nodup) then
      let start := startIdx original.entries
      .ok { original with
            entries := original.entries ++ numberFrom start (chunkEntries (sortByCoord newSources)) }
    else .error .orderingAmbiguity
  else .error .dimMismatch

/-! ## Single-source translator and the notebook function around it -/

/-- Modelled from the spec: the content of one scientific array file as the
translator sees it, restricted to one variable: the attribute from which the
coordinate value for the concatenation dimension is derived, the shape along
the identical dimensions, the dtype descriptor, and the byte content of each
chunk in order. -/
structure SourceFile where
  coordAttr : Int
  ishape : List Nat
  dtype : Nat
  chunkData : List (List Nat)
deriving DecidableEq

/-- Modelled from the spec: chunk references produced by the translator.  A
chunk whose byte size is at most the inlining threshold is embedded
directly; a larger chunk is referenced by source location, byte offset and
byte length, with offsets accumulated in file order. -/
def chunkRefsFrom (url : List Char) (threshold : Nat) : Nat → List (List Nat) → List RefVal
  | _, [] => []
  | off, b :: bs =>
    (if b.length ≤ threshold then RefVal.inline b else RefVal.range url off b.length)
      :: chunkRefsFrom url threshold (off + b.length) bs

/-- Modelled from the spec: the external single-source translator, a function
of the source file content and the inlining threshold that produces a
dataset-level index. -/
def SingleHdf5ToZarr.translate (url : List Char) (sf : SourceFile) (threshold : Nat) : Source :=
  { coord := sf.coordAttr, ishape := sf.ishape, dtype := sf.dtype,
    chunks := chunkRefsFrom url threshold 0 sf.chunkData }

/-- Lookup in an association-list model of a filesystem keyed by path. -/
def fsLookup {α : Type} : List (List Char × α) → List Char → Option α
  | [], _ => none
  | (p, v) :: rest, q => if p = q then some v else fsLookup rest q

/-- Write to an association-list model of a filesystem: the new binding
shadows any earlier one for the same path. -/
def fsWrite {α : Type} (fs : List (List Char × α)) (p : List Char) (v : α) : List (List Char × α) :=
  (p, v) :: fs

/-- Models generate_json_reference from the appending notebook: the remote
file named by `fil` is opened and translated with inline threshold 300, the
output name is computed by the expression fil.split("/")[-1].strip(".nc"),
and the resulting dataset-level index is written to output_dir/fname.json.
The translator call is external and is modelled from the spec as the pure
function SingleHdf5ToZarr.translate of the file content and the threshold;
the json serialization is modelled by storing the index value itself. -/
def generate_json_reference (remote : List (List Char × SourceFile)) (fil : List Char)
    (output_dir : List Char) (localFs : List (List Char × Source)) :
    Option (List (List Char × Source) × List Char) :=
  match fsLookup remote fil with
  | none => none
  | some infile =>
    let fname := pyStrip dotNC (pyLast (pySplit '/' fil))
    let outf := output_dir ++ ('/' :: (fname ++ dotJson))
    some (fsWrite localFs outf (SingleHdf5ToZarr.translate fil infile 300), outf)

/-! ## Lazy partitioned reference store -/

/-- One record held by the lazy store: global chunk index, derived coordinate
value, and chunk reference. -/
abbrev StoreEntry := Nat × Int × RefVal

/-- Appends an entry to the named partition of an association list of
partitions, creating the partition when absent. -/
def partInsert : List (Nat × List StoreEntry) → Nat → StoreEntry → List (Nat × List StoreEntry)
  | [], p, e => [(p, [e])]
  | (q, es) :: rest, p, e =>
    if q = p then (q, es ++ [e]) :: rest else (q, es) :: partInsert rest p e

/-- Lookup of one partition in an association list of partitions. -/
def partLookup : List (Nat × List StoreEntry) → Nat → Option (List StoreEntry)
  | [], _ => none
  | (q, es) :: rest, p => if q = p then some es else partLookup rest p

/-- Modelled from the spec: the lazy reference store.  A combined index is
partitioned into record groups of a configurable size persisted separately,
a manifest names the partitions visible to readers, and writes are buffered
until flush. -/
structure LazyReferenceMapper where
  root : List Char
  recordSize : Nat
  partitions : List (Nat × List StoreEntry)
  manifest : List Nat
  buffered : List StoreEntry
deriving DecidableEq

/-- Modelled from the spec: LazyReferenceMapper.create initializes an empty
partitioned store at the given root with the given partition record size. -/
def LazyReferenceMapper.create (root : List Char) (recordSize : Nat) : LazyReferenceMapper :=
  { root := root, recordSize := recordSize, partitions := [], manifest := [], buffered := [] }

/-- Modelled from the spec: flush durably persists all buffered records not
yet written, placing each record in the partition holding its global chunk
index (index divided by the record size), and updates the manifest so that
readers see exactly the fully written partitions. -/
def LazyReferenceMapper.flush (st : LazyReferenceMapper) : LazyReferenceMapper :=
  let ps := st.buffered.foldl (fun parts e => partInsert parts (e.1 / st.recordSize) e) st.partitions
  { root := st.root, recordSize := st.recordSize, partitions := ps,
    manifest := ps.map Prod.fst, buffered := [] }

/-! ## Persistence of the combined index in the appending notebook -/

/-- Models the persistence step of the appending notebook, which writes the
appended combined index with a plain truncating file write (mode "wb"
followed by a single write call).  Opening with mode "wb" truncates the
existing file immediately and the write then emits the new bytes in order,
so a failure after `k` bytes leaves on disk exactly the first `k` bytes of
the new contents; nothing of the prior contents survives the truncation. -/
def writeFileInterrupted (_priorContents : List Nat) (newContents : List Nat) (k : Nat) : List Nat :=
  newContents.take k

/-- Decidable equality for combine and append results, used to evaluate the
model on concrete inputs. -/
instance : DecidableEq (Except CombineError Combined) :=
  fun a b =>
    match a, b with
    | .error x, .error y =>
      if h : x = y then isTrue (by rw [h]) else isFalse (fun hc => h (Except.error.inj hc))
    | .error _, .ok _ => isFalse (fun hc => Except.noConfusion hc)
    | .ok _, .error _ => isFalse (fun hc => Except.noConfusion hc)
    | .ok x, .ok y =>
      if h : x = y then isTrue (by rw [h]) else isFalse (fun hc => h (Except.ok.inj hc))

/-! ## Lemmas about the Python string primitives -/

/-- Split never returns an empty list of pieces. -/
theorem pySplit_ne_nil (sep : Char) (s : List Char) : pySplit sep s ≠ [] := by
  cases s with
  | nil => simp [pySplit]
  | cons c t =>
    cases h : pySplit sep t with
    | nil => simp [pySplit, h]
    | cons p ps => by_cases hc : c = sep <;> simp [pySplit, h, hc]

/-- A string without the separator splits into the single piece itself. -/
theorem pySplit_no_sep (sep : Char) (s : List Char) (h : sep ∉ s) : pySplit sep s = [s] := by
  induction s with
  | nil => rfl
  | cons c t ih =>
    have hct : sep ∉ t := fun hm => h (List.mem_cons_of_mem _ hm)
    have hcc : c ≠ sep := fun he => h (he ▸ List.mem_cons_self c t)
    simp [pySplit, ih hct, hcc]

/-- A string containing the separator splits into at least two pieces. -/
theorem pySplit_length_ge_two (sep : Char) (s : List Char) (h : sep ∈ s) :
    2 ≤ (pySplit sep s).length := by
  induction s with
  | nil => cases h
  | cons c t ih =>
    cases hsp : pySplit sep t with
    | nil => exact absurd hsp (pySplit_ne_nil sep t)
    | cons p ps =>
      by_cases hc : c = sep
      · simp [pySplit, hsp, hc]
      · have ht : sep ∈ t := by
          rcases List.mem_cons.mp h with he | hm
          · exact absurd he.symm hc
          · exact hm
        have h2 := ih ht
        rw [hsp] at h2
        simp only [List.length_cons] at h2
        simp [pySplit, hsp, hc]
        omega

/-- The last piece of the slash-split of a string is the segment after its
last slash. -/
theorem pyLast_pySplit (s : List Char) : pyLast (pySplit '/' s) = afterLastSlash s := by
  induction s with
  | nil => rfl
  | cons c t ih =>
    by_cases hc : c = '/'
    · subst hc
      cases hsp : pySplit '/' t with
      | nil => exact absurd hsp (pySplit_ne_nil _ _)
      | cons p ps =>
        simp only [pySplit, hsp, if_pos rfl, afterLastSlash, if_pos rfl]
        calc pyLast ([] :: p :: ps) = pyLast (p :: ps) := rfl
          _ = afterLastSlash t := by rw [← hsp]; exact ih
    · by_cases hmem : '/' ∈ t
      · have h2 := pySplit_length_ge_two '/' t hmem
        cases hsp : pySplit '/' t with
        | nil => exact absurd hsp (pySplit_ne_nil _ _)
        | cons p ps =>
          cases ps with
          | nil => rw [hsp] at h2; simp at h2
          | cons p' ps' =>
            simp only [pySplit, hsp, if_neg hc, afterLastSlash, if_neg hc, if_pos hmem]
            calc pyLast ((c :: p) :: p' :: ps') = pyLast (p :: p' :: ps') := rfl
              _ = afterLastSlash t := by rw [← hsp]; exact ih
      · have hno : '/' ∉ c :: t := by
          intro hm
          rcases List.mem_cons.mp hm with he | hm2
          · exact hc he.symm
          · exact hmem hm2
        rw [pySplit_no_sep '/' (c :: t) hno]
        simp [pyLast, afterLastSlash, hc, hmem]

/-- On a slash-free string the segment after the last slash is the string
itself. -/
theorem afterLastSlash_no_slash (s : List Char) (h : '/' ∉ s) : afterLastSlash s = s := by
  cases s with
  | nil => rfl
  | cons c t =>
    have hc : c ≠ '/' := fun he => h (he ▸ List.mem_cons_self c t)
    have ht : '/' ∉ t := fun hm => h (List.mem_cons_of_mem _ hm)
    simp [afterLastSlash, hc, ht]

/-- Every character of the segment after the last slash occurs in the
string. -/
theorem mem_afterLastSlash (x : Char) (s : List Char) (h : x ∈ afterLastSlash s) : x ∈ s := by
  induction s with
  | nil => simp [afterLastSlash] at h
  | cons c t ih =>
    by_cases hc : c = '/'
    · rw [afterLastSlash, if_pos hc] at h
      exact List.mem_cons_of_mem _ (ih h)
    · by_cases hmem : '/' ∈ t
      · rw [afterLastSlash, if_neg hc, if_pos hmem] at h
        exact List.mem_cons_of_mem _ (ih h)
      · rwa [afterLastSlash, if_neg hc, if_neg hmem] at h

/-- Every character surviving a right strip occurs in the string. -/
theorem mem_pyRStrip (cs : List Char) (x : Char) (s : List Char) (h : x ∈ pyRStrip cs s) :
    x ∈ s := by
  induction s with
  | nil => simp [pyRStrip] at h
  | cons c t ih =>
    rw [pyRStrip] at h
    by_cases hr : pyRStrip cs t = []
    · simp only [hr, if_pos rfl] at h
      by_cases hc : c ∈ cs
      · simp [hc] at h
      · simp only [hc, if_neg] at h
        simp at h
        simp [h]
    · simp only [if_neg hr] at h
      rcases List.mem_cons.mp h with he | hm
      · exact he ▸ List.mem_cons_self c t
      · exact List.mem_cons_of_mem _ (ih hm)

/-- The right strip erases the whole string exactly when every character
belongs to the strip set. -/
theorem pyRStrip_eq_nil_iff (cs : List Char) (s : List Char) :
    pyRStrip cs s = [] ↔ ∀ x ∈ s, x ∈ cs := by
  induction s with
  | nil => simp [pyRStrip]
  | cons c t ih =>
    rw [pyRStrip]
    by_cases hr : pyRStrip cs t = []
    · simp only [hr, if_pos rfl]
      by_cases hc : c ∈ cs
      · rw [if_pos hc]
        constructor
        · intro _ x hx
          rcases List.mem_cons.mp hx with he | hm
          · exact he ▸ hc
          · exact ih.mp hr x hm
        · intro _; rfl
      · rw [if_neg hc]
        constructor
        · intro h; cases h
        · intro h; exact absurd (h c (List.mem_cons_self c t)) hc
    · simp only [if_neg hr]
      constructor
      · intro h; cases h
      · intro h
        exact absurd (ih.mpr (fun x hx => h x (List.mem_cons_of_mem _ hx))) hr

/-- A character outside the strip set survives the right strip. -/
theorem mem_pyRStrip_of_mem (cs : List Char) (x : Char) (s : List Char)
    (hx : x ∉ cs) (h : x ∈ s) : x ∈ pyRStrip cs s := by
  induction s with
  | nil => cases h
  | cons c t ih =>
    rw [pyRStrip]
    by_cases hr : pyRStrip cs t = []
    · have hall : ∀ y ∈ t, y ∈ cs := (pyRStrip_eq_nil_iff cs t).mp hr
      have hxc : x = c := by
        rcases List.mem_cons.mp h with he | hm
        · exact he
        · exact absurd (hall x hm) hx
      subst hxc
      simp [hr, hx]
    · simp only [if_neg hr]
      rcases List.mem_cons.mp h with he | hm
      · exact he ▸ List.mem_cons_self c _
      · exact List.mem_cons_of_mem _ (ih hm)

/-- Every character surviving a left strip occurs in the string. -/
theorem mem_pyLStrip (cs : List Char) (x : Char) (s : List Char) (h : x ∈ pyLStrip cs s) :
    x ∈ s := by
  induction s with
  | nil => simp [pyLStrip] at h
  | cons c t ih =>
    rw [pyLStrip] at h
    by_cases hc : c ∈ cs
    · rw [if_pos hc] at h
      exact List.mem_cons_of_mem _ (ih h)
    · rwa [if_neg hc] at h

/-- Left-stripping characters outside the slash does not change the segment
after the last slash, provided a slash occurs at all. -/
theorem afterLastSlash_pyLStrip (cs : List Char) (s : List Char)
    (hcs : '/' ∉ cs) (hs : '/' ∈ s) :
    afterLastSlash (pyLStrip cs s) = afterLastSlash s := by
  induction s with
  | nil => cases hs
  | cons c t ih =>
    by_cases hc : c ∈ cs
    · have hcslash : c ≠ '/' := fun he => hcs (he ▸ hc)
      have ht : '/' ∈ t := by
        rcases List.mem_cons.mp hs with he | hm
        · exact absurd he.symm hcslash
        · exact hm
      rw [pyLStrip, if_pos hc, ih ht, afterLastSlash, if_neg hcslash, if_pos ht]
    · rw [pyLStrip, if_neg hc]

/-- Right-stripping characters outside the slash commutes with taking the
segment after the last slash. -/
theorem afterLastSlash_pyRStrip (cs : List Char) (s : List Char) (hcs : '/' ∉ cs) :
    afterLastSlash (pyRStrip cs s) = pyRStrip cs (afterLastSlash s) := by
  induction s with
  | nil => rfl
  | cons c t ih =>
    rw [pyRStrip]
    by_cases hr : pyRStrip cs t = []
    · have hall : ∀ y ∈ t, y ∈ cs := (pyRStrip_eq_nil_iff cs t).mp hr
      have htno : '/' ∉ t := fun hm => hcs (hall '/' hm)
      rw [if_pos hr]
      by_cases hc : c ∈ cs
      · have hcslash : c ≠ '/' := fun he => hcs (he ▸ hc)
        rw [if_pos hc]
        have h2 : afterLastSlash (c :: t) = c :: t := by
          rw [afterLastSlash, if_neg hcslash, if_neg htno]
        rw [h2, pyRStrip, if_pos hr, if_pos hc]
        rfl
      · rw [if_neg hc]
        by_cases hcslash : c = '/'
        · subst hcslash
          have h1 : afterLastSlash ['/'] = [] := by simp [afterLastSlash]
          have h2 : afterLastSlash ('/' :: t) = afterLastSlash t := by simp [afterLastSlash]
          rw [h1, h2, (pyRStrip_eq_nil_iff cs (afterLastSlash t)).mpr
                (fun y hy => hall y (mem_afterLastSlash y t hy))]
        · have h1 : afterLastSlash [c] = [c] := by simp [afterLastSlash, hcslash]
          have h2 : afterLastSlash (c :: t) = c :: t := by
            rw [afterLastSlash, if_neg hcslash, if_neg htno]
          rw [h1, h2, pyRStrip, if_pos hr, if_neg hc]
    · simp only [if_neg hr]
      by_cases hcslash : c = '/'
      · have h1 : afterLastSlash (c :: pyRStrip cs t) = afterLastSlash (pyRStrip cs t) := by
          rw [afterLastSlash, if_pos hcslash]
        have h2 : afterLastSlash (c :: t) = afterLastSlash t := by
          rw [afterLastSlash, if_pos hcslash]
        rw [h1, h2]
        exact ih
      · by_cases htmem : '/' ∈ t
        · have hmr : '/' ∈ pyRStrip cs t := mem_pyRStrip_of_mem cs '/' t hcs htmem
          have h1 : afterLastSlash (c :: pyRStrip cs t) = afterLastSlash (pyRStrip cs t) := by
            rw [afterLastSlash, if_neg hcslash, if_pos hmr]
          have h2 : afterLastSlash (c :: t) = afterLastSlash t := by
            rw [afterLastSlash, if_neg hcslash, if_pos htmem]
          rw [h1, h2]
          exact ih
        · have hnr : '/' ∉ pyRStrip cs t := fun hm => htmem (mem_pyRStrip cs '/' t hm)
          have h1 : afterLastSlash (c :: pyRStrip cs t) = c :: pyRStrip cs t := by
            rw [afterLastSlash, if_neg hcslash, if_neg hnr]
          have h2 : afterLastSlash (c :: t) = c :: t := by
            rw [afterLastSlash, if_neg hcslash, if_neg htmem]
          rw [h1, h2, pyRStrip]
          simp [hr]

/-- Stripping a string that begins with a character outside the strip set
reduces to the right strip alone: the left strip finds nothing to remove. -/
theorem pyStrip_cons_not_mem (cs : List Char) (c : Char) (rest : List Char) (hc : c ∉ cs) :
    pyStrip cs (c :: rest) = pyRStrip cs (c :: rest) := by
  rw [pyStrip, pyRStrip]
  by_cases hr : pyRStrip cs rest = []
  · rw [if_pos hr, if_neg hc, pyLStrip, if_neg hc]
  · rw [if_neg hr, pyLStrip, if_neg hc]

/-- C10: for every input path whose basename begins with a character outside
the set of the three characters of ".nc" (as every path matched by the
notebook WRFDETAR glob does), the reference-file name reconstructed by the
combine and append cells with f.strip(".nc").split("/")[-1] equals the name
that generate_json_reference wrote with fil.split("/")[-1].strip(".nc"),
although Python str.strip removes a character set rather than a suffix and
the two expressions apply strip and split in opposite orders. -/
theorem strip_split_order_agrees (f : List Char) (c : Char) (rest : List Char)
    (hb : pyLast (pySplit '/' f) = c :: rest) (hc : c ∉ dotNC) :
    pyLast (pySplit '/' (pyStrip dotNC f)) = pyStrip dotNC (pyLast (pySplit '/' f)) := by
  have hcs : '/' ∉ dotNC := by decide
  have hA : afterLastSlash f = c :: rest := by rw [← pyLast_pySplit]; exact hb
  rw [pyLast_pySplit, pyLast_pySplit]
  simp only [pyStrip]
  by_cases hslash : '/' ∈ pyRStrip dotNC f
  · rw [afterLastSlash_pyLStrip dotNC (pyRStrip dotNC f) hcs hslash,
        afterLastSlash_pyRStrip dotNC f hcs, hA]
    exact (pyStrip_cons_not_mem dotNC c rest hc).symm
  · have hf : '/' ∉ f := fun hm => hslash (mem_pyRStrip_of_mem dotNC '/' f hcs hm)
    have h2 : '/' ∉ pyLStrip dotNC (pyRStrip dotNC f) := fun hm =>
      hslash (mem_pyLStrip dotNC '/' _ hm)
    rw [afterLastSlash_no_slash _ h2, afterLastSlash_no_slash f hf]

/-- Witness for C10 at the concrete path s3://b/WRF01.nc, whose basename
begins with the letter W. -/
theorem strip_split_order_agrees_witness :
    (pyLast (pySplit '/' ['s', '3', ':', '/', '/', 'b', '/', 'W', 'R', 'F', '0', '1', '.', 'n', 'c'])
        = 'W' :: ['R', 'F', '0', '1', '.', 'n', 'c'] ∧ 'W' ∉ dotNC) ∧
    pyLast (pySplit '/' (pyStrip dotNC ['s', '3', ':', '/', '/', 'b', '/', 'W', 'R', 'F', '0', '1', '.', 'n', 'c']))
      = pyStrip dotNC (pyLast (pySplit '/' ['s', '3', ':', '/', '/', 'b', '/', 'W', 'R', 'F', '0', '1', '.', 'n', 'c'])) :=
  ⟨⟨by decide, by decide⟩,
    strip_split_order_agrees ['s', '3', ':', '/', '/', 'b', '/', 'W', 'R', 'F', '0', '1', '.', 'n', 'c']
      'W' ['R', 'F', '0', '1', '.', 'n', 'c'] (by decide) (by decide)⟩

/-! ## Lemmas about the modelled combiner -/

/-- Inserting a source whose coordinate is below every coordinate of an
ordered list puts it in front. -/
theorem insertByCoord_of_le (s : Source) (l : List Source)
    (h : ∀ t ∈ l, s.coord ≤ t.coord) : insertByCoord s l = s :: l := by
  cases l with
  | nil => rfl
  | cons t ts => rw [insertByCoord, if_pos (h t (List.mem_cons_self t ts))]

/-- Sorting a list of sources already ordered by coordinate leaves it
unchanged. -/
theorem sortByCoord_of_sorted (l : List Source)
    (h : List.Pairwise (fun a b => a.coord ≤ b.coord) l) : sortByCoord l = l := by
  induction l with
  | nil => rfl
  | cons a t ih =>
    rcases List.pairwise_cons.mp h with ⟨ha, ht⟩
    rw [sortByCoord, ih ht, insertByCoord_of_le a t ha]

/-- The chunk payloads of a concatenation of source lists are the
concatenation of the payloads. -/
theorem chunkEntries_append (l1 l2 : List Source) :
    chunkEntries (l1 ++ l2) = chunkEntries l1 ++ chunkEntries l2 := by
  induction l1 with
  | nil => rfl
  | cons s ss ih => simp [chunkEntries, ih]

/-- Keying a concatenation of payload lists splits into two keyed blocks,
the second starting where the first ends. -/
theorem numberFrom_append (s : Nat) (l1 l2 : List (Int × RefVal)) :
    numberFrom s (l1 ++ l2) = numberFrom s l1 ++ numberFrom (s + l1.length) l2 := by
  induction l1 generalizing s with
  | nil => simp [numberFrom]
  | cons a as ih =>
    have h : s + (as.length + 1) = s + 1 + as.length := by omega
    calc numberFrom s ((a :: as) ++ l2)
        = (s, a) :: numberFrom (s + 1) (as ++ l2) := rfl
      _ = (s, a) :: (numberFrom (s + 1) as ++ numberFrom (s + 1 + as.length) l2) := by
            rw [ih (s + 1)]
      _ = numberFrom s (a :: as) ++ numberFrom (s + (a :: as).length) l2 := by
            rw [List.length_cons, h]
            rfl

/-- Keying a payload list ending in one element keys the last element with
the starting index plus the length of the front. -/
theorem numberFrom_concat (s : Nat) (l : List (Int × RefVal)) (a : Int × RefVal) :
    numberFrom s (l ++ [a]) = numberFrom s l ++ [(s + l.length, a)] := by
  rw [numberFrom_append]
  rfl

/-- The number of keyed entries equals the number of payloads. -/
theorem numberFrom_length (s : Nat) (l : List (Int × RefVal)) :
    (numberFrom s l).length = l.length := by
  induction l generalizing s with
  | nil => rfl
  | cons a as ih => simp [numberFrom, ih]

/-- The keys assigned by numberFrom are the consecutive naturals starting at
the given index. -/
theorem numberFrom_map_fst (s : Nat) (l : List (Int × RefVal)) :
    (numberFrom s l).map Prod.fst = keyRange s l.length := by
  induction l generalizing s with
  | nil => rfl
  | cons a as ih => simp [numberFrom, keyRange, ih]

/-- Two adjacent blocks of consecutive naturals merge into one. -/
theorem keyRange_append (s m n : Nat) :
    keyRange s m ++ keyRange (s + m) n = keyRange s (m + n) := by
  induction m generalizing s with
  | zero => simp [keyRange]
  | succ m ih =>
    simp only [keyRange, List.cons_append]
    have h1 : s + (m + 1) = s + 1 + m := by omega
    have h2 : m + 1 + n = (m + n) + 1 := by omega
    rw [h1, h2, keyRange, ih (s + 1)]

/-- The next free chunk index after a block keyed from zero is the block
length. -/
theorem startIdx_numberFrom (l : List (Int × RefVal)) :
    startIdx (numberFrom 0 l) = l.length := by
  rcases List.eq_nil_or_concat l with h | ⟨l', a, h⟩
  · subst h; rfl
  · subst h
    rw [List.concat_eq_append, numberFrom_concat, startIdx, List.getLast?_concat]
    simp

/-- Inversion of a successful combine call: the checks passed and the result
has the stated shape. -/
theorem combine_ok_inv (s0 : Source) (rest : List Source) (c : Combined)
    (h : MultiZarrToZarr.combine (s0 :: rest) = .ok c) :
    (∀ s ∈ s0 :: rest, s.ishape = s0.ishape ∧ s.dtype = s0.dtype) ∧
    (((s0 :: rest).map (fun s => s.coord)).Nodup) ∧
    c = { ishape := s0.ishape, dtype := s0.dtype,
          entries := numberFrom 0 (chunkEntries (sortByCoord (s0 :: rest))) } := by
  simp only [MultiZarrToZarr.combine] at h
  by_cases h1 : ∀ s ∈ s0 :: rest, s.ishape = s0.ishape ∧ s.dtype = s0.dtype
  · by_cases h2 : (((s0 :: rest).map (fun s => s.coord)).Nodup)
    · rw [if_pos h1, if_pos h2] at h
      exact ⟨h1, h2, (Except.ok.inj h).symm⟩
    · rw [if_pos h1, if_neg h2] at h
      cases h
  · rw [if_neg h1] at h
    cases h

/-- Inversion of a successful append call: the checks passed and the result
has the stated shape. -/
theorem append_ok_inv (newSources : List Source) (c r : Combined)
    (h : MultiZarrToZarr.append newSources c = .ok r) :
    (∀ s ∈ newSources, s.ishape = c.ishape ∧ s.dtype = c.dtype) ∧
    ((newSources.map (fun s => s.coord)).Nodup) ∧
    r = { c with entries := c.entries ++
            numberFrom (startIdx c.entries) (chunkEntries (sortByCoord newSources)) } := by
  unfold MultiZarrToZarr.append at h
  by_cases h1 : ∀ s ∈ newSources, s.ishape = c.ishape ∧ s.dtype = c.dtype
  · by_cases h2 : ((newSources.map (fun s => s.coord)).Nodup)
    · rw [if_pos h1, if_pos h2] at h
      exact ⟨h1, h2, (Except.ok.inj h).symm⟩
    · rw [if_pos h1, if_neg h2] at h
      cases h
  · rw [if_neg h1] at h
    cases h

/-- C5: appending an empty sequence of new sources to a combined index
returns a combined index identical to it, record for record. -/
theorem append_empty_sources (c : Combined) : MultiZarrToZarr.append [] c = .ok c := by
  obtain ⟨i, d, e⟩ := c
  unfold MultiZarrToZarr.append
  rw [if_pos (fun s hs => absurd hs (List.not_mem_nil s)), if_pos (by simp)]
  show (Except.ok (⟨i, d, e ++ numberFrom (startIdx e) (chunkEntries (sortByCoord []))⟩ : Combined)
      : Except CombineError Combined) = Except.ok (⟨i, d, e⟩ : Combined)
  rw [show numberFrom (startIdx e) (chunkEntries (sortByCoord [])) = [] from rfl,
      List.append_nil]

/-- C4: a shape or dtype mismatch along the identical dimensions is fatal to
the whole combine or append call: the call returns the dimension-mismatch
error and produces no combined index, so a prior combined index is left
unchanged. -/
theorem identical_dims_mismatch_fatal (s0 : Source) (rest newSources : List Source)
    (c : Combined)
    (h1 : ∃ s ∈ s0 :: rest, ¬(s.ishape = s0.ishape ∧ s.dtype = s0.dtype))
    (h2 : ∃ s ∈ newSources, ¬(s.ishape = c.ishape ∧ s.dtype = c.dtype)) :
    MultiZarrToZarr.combine (s0 :: rest) = .error .dimMismatch ∧
    MultiZarrToZarr.append newSources c = .error .dimMismatch := by
  constructor
  · have hn : ¬ ∀ s ∈ s0 :: rest, s.ishape = s0.ishape ∧ s.dtype = s0.dtype := by
      rcases h1 with ⟨s, hs, hns⟩
      exact fun hall => hns (hall s hs)
    simp only [MultiZarrToZarr.combine]
    rw [if_neg hn]
  · have hn : ¬ ∀ s ∈ newSources, s.ishape = c.ishape ∧ s.dtype = c.dtype := by
      rcases h2 with ⟨s, hs, hns⟩
      exact fun hall => hns (hall s hs)
    unfold MultiZarrToZarr.append
    rw [if_neg hn]

/-- Witness for C4: a second source with a different shape along the
identical dimensions makes combine fail, and a new source with a different
shape makes append fail. -/
theorem identical_dims_mismatch_fatal_witness :
    (∃ s ∈ [(⟨0, [1], 7, []⟩ : Source), ⟨1, [2], 7, []⟩],
        ¬(s.ishape = (⟨0, [1], 7, []⟩ : Source).ishape ∧
          s.dtype = (⟨0, [1], 7, []⟩ : Source).dtype)) ∧
    (∃ s ∈ [(⟨2, [3], 7, []⟩ : Source)],
        ¬(s.ishape = (⟨[1], 7, []⟩ : Combined).ishape ∧
          s.dtype = (⟨[1], 7, []⟩ : Combined).dtype)) ∧
    (MultiZarrToZarr.combine [⟨0, [1], 7, []⟩, ⟨1, [2], 7, []⟩] = .error .dimMismatch ∧
     MultiZarrToZarr.append [⟨2, [3], 7, []⟩] ⟨[1], 7, []⟩ = .error .dimMismatch) :=
  ⟨by decide, by decide,
    identical_dims_mismatch_fatal ⟨0, [1], 7, []⟩ [⟨1, [2], 7, []⟩] [⟨2, [3], 7, []⟩]
      ⟨[1], 7, []⟩ (by decide) (by decide)⟩

/-- C8: when the derived coordinate values are not pairwise distinct and the
dimension checks pass, combine and append surface the ordering-ambiguity
error to the caller instead of silently picking one ordering. -/
theorem ordering_ambiguity_surfaced (s0 : Source) (rest newSources : List Source)
    (c : Combined)
    (hm1 : ∀ s ∈ s0 :: rest, s.ishape = s0.ishape ∧ s.dtype = s0.dtype)
    (hd1 : ¬ (((s0 :: rest).map (fun s => s.coord)).Nodup))
    (hm2 : ∀ s ∈ newSources, s.ishape = c.ishape ∧ s.dtype = c.dtype)
    (hd2 : ¬ ((newSources.map (fun s => s.coord)).Nodup)) :
    MultiZarrToZarr.combine (s0 :: rest) = .error .orderingAmbiguity ∧
    MultiZarrToZarr.append newSources c = .error .orderingAmbiguity := by
  constructor
  · simp only [MultiZarrToZarr.combine]
    rw [if_pos hm1, if_neg hd1]
  · unfold MultiZarrToZarr.append
    rw [if_pos hm2, if_neg hd2]

/-- Witness for C8: two sources with the same derived coordinate value make
combine fail, and two new sources with the same value make append fail. -/
theorem ordering_ambiguity_surfaced_witness :
    (∀ s ∈ [(⟨4, [1], 7, []⟩ : Source), ⟨4, [1], 7, []⟩],
        s.ishape = (⟨4, [1], 7, []⟩ : Source).ishape ∧
        s.dtype = (⟨4, [1], 7, []⟩ : Source).dtype) ∧
    (¬ ((([(⟨4, [1], 7, []⟩ : Source), ⟨4, [1], 7, []⟩]).map (fun s => s.coord)).Nodup)) ∧
    (MultiZarrToZarr.combine [⟨4, [1], 7, []⟩, ⟨4, [1], 7, []⟩] = .error .orderingAmbiguity ∧
     MultiZarrToZarr.append [⟨4, [1], 7, []⟩, ⟨4, [1], 7, []⟩] ⟨[1], 7, []⟩
       = .error .orderingAmbiguity) :=
  ⟨by decide, by decide,
    ordering_ambiguity_surfaced ⟨4, [1], 7, []⟩ [⟨4, [1], 7, []⟩] [⟨4, [1], 7, []⟩, ⟨4, [1], 7, []⟩]
      ⟨[1], 7, []⟩ (by decide) (by decide) (by decide) (by decide)⟩

/-- C3: for every append call on a combined index produced by combine, the
new chunk indices continue immediately after the last index present in the
original: the resulting key sequence is the consecutive naturals from zero,
with no gaps and no overlaps, and the original entries are preserved as an
unchanged initial block, with no hypothesis relating the coordinate values
of the new sources to the original ones. -/
theorem append_offsets_contiguous (srcs newSources : List Source) (c r : Combined)
    (hc : MultiZarrToZarr.combine srcs = .ok c)
    (h : MultiZarrToZarr.append newSources c = .ok r) :
    r.entries.map Prod.fst = keyRange 0 r.entries.length ∧
    r.entries.take c.entries.length = c.entries := by
  obtain ⟨F, hF⟩ : ∃ F, c.entries = numberFrom 0 F := by
    cases srcs with
    | nil => simp [MultiZarrToZarr.combine] at hc
    | cons s0 rest =>
      rcases combine_ok_inv s0 rest c hc with ⟨-, -, hceq⟩
      exact ⟨chunkEntries (sortByCoord (s0 :: rest)), by rw [hceq]⟩
  rcases append_ok_inv newSources c r h with ⟨-, -, hreq⟩
  have hent : r.entries = numberFrom 0 F ++
      numberFrom F.length (chunkEntries (sortByCoord newSources)) := by
    rw [hreq]
    show c.entries ++ numberFrom (startIdx c.entries) (chunkEntries (sortByCoord newSources)) = _
    rw [hF, startIdx_numberFrom]
  constructor
  · rw [hent, List.map_append, numberFrom_map_fst, numberFrom_map_fst,
        List.length_append, numberFrom_length, numberFrom_length]
    have hk := keyRange_append 0 F.length (chunkEntries (sortByCoord newSources)).length
    rw [Nat.zero_add] at hk
    exact hk
  · rw [hent, hF]
    exact List.take_left (numberFrom 0 F) _

/-- Witness for C3: appending one new source with a non-contiguous
coordinate to a one-entry combined index keys it with the next index. -/
theorem append_offsets_contiguous_witness :
    (MultiZarrToZarr.combine [⟨1, [1], 7, [RefVal.inline [0]]⟩]
      = .ok ⟨[1], 7, [(0, 1, RefVal.inline [0])]⟩) ∧
    (MultiZarrToZarr.append [⟨9, [1], 7, [RefVal.inline [3]]⟩]
        ⟨[1], 7, [(0, 1, RefVal.inline [0])]⟩
      = .ok ⟨[1], 7, [(0, 1, RefVal.inline [0]), (1, 9, RefVal.inline [3])]⟩) ∧
    ((⟨[1], 7, [(0, 1, RefVal.inline [0]), (1, 9, RefVal.inline [3])]⟩ : Combined).entries.map
        Prod.fst
      = keyRange 0 (⟨[1], 7, [(0, 1, RefVal.inline [0]),
          (1, 9, RefVal.inline [3])]⟩ : Combined).entries.length ∧
     (⟨[1], 7, [(0, 1, RefVal.inline [0]), (1, 9, RefVal.inline [3])]⟩ : Combined).entries.take
        (⟨[1], 7, [(0, 1, RefVal.inline [0])]⟩ : Combined).entries.length
      = (⟨[1], 7, [(0, 1, RefVal.inline [0])]⟩ : Combined).entries) :=
  ⟨by decide, by decide,
    append_offsets_contiguous [⟨1, [1], 7, [RefVal.inline [0]]⟩]
      [⟨9, [1], 7, [RefVal.inline [3]]⟩] ⟨[1], 7, [(0, 1, RefVal.inline [0])]⟩
      ⟨[1], 7, [(0, 1, RefVal.inline [0]), (1, 9, RefVal.inline [3])]⟩
      (by decide) (by decide)⟩

/-- Counterexample for C1 as stated: splitting the two-source sequence with
coordinates five and three after its first element makes append put the
smaller coordinate after the larger one, while combining all sources in one
pass sorts it first, so the two results differ. -/
theorem append_combine_counterexample :
    MultiZarrToZarr.combine [⟨5, [1], 7, [RefVal.inline [1]]⟩]
      = Except.ok ⟨[1], 7, [(0, 5, RefVal.inline [1])]⟩ ∧
    MultiZarrToZarr.append [⟨3, [1], 7, [RefVal.inline [2]]⟩]
        ⟨[1], 7, [(0, 5, RefVal.inline [1])]⟩
      ≠ MultiZarrToZarr.combine
          ([⟨5, [1], 7, [RefVal.inline [1]]⟩] ++ [⟨3, [1], 7, [RefVal.inline [2]]⟩]) := by
  decide

/-- C1 amended: for every sequence of dataset-level indexes whose derived
coordinates are strictly increasing in sequence order, and every split point
of it into original sources and new sources, appending the new sources to
the combination of the originals gives the same result as combining the
whole sequence in one pass, byte ranges, coordinate mapping and error
behavior included. -/
theorem append_combine_split (orig newSources : List Source) (c : Combined)
    (hsorted : List.Pairwise (fun a b => a.coord < b.coord) (orig ++ newSources))
    (hc : MultiZarrToZarr.combine orig = .ok c) :
    MultiZarrToZarr.append newSources c = MultiZarrToZarr.combine (orig ++ newSources) := by
  cases orig with
  | nil => simp [MultiZarrToZarr.combine] at hc
  | cons s0 rest =>
    rcases combine_ok_inv s0 rest c hc with ⟨hm, hnd, hceq⟩
    have hsorted' : List.Pairwise (fun a b : Source => a.coord < b.coord)
        (s0 :: (rest ++ newSources)) := by
      have hx := hsorted
      rw [List.cons_append] at hx
      exact hx
    rw [List.pairwise_append] at hsorted
    obtain ⟨hso, hsn, -⟩ := hsorted
    have hnd_new : ((newSources.map (fun s => s.coord)).Nodup) :=
      List.pairwise_map.mpr (hsn.imp (fun hlt => ne_of_lt hlt))
    have hnd_all : (((s0 :: (rest ++ newSources)).map (fun s => s.coord)).Nodup) :=
      List.pairwise_map.mpr (hsorted'.imp (fun hlt => ne_of_lt hlt))
    have hsort_new : sortByCoord newSources = newSources :=
      sortByCoord_of_sorted _ (hsn.imp (fun hlt => le_of_lt hlt))
    have hsort_orig : sortByCoord (s0 :: rest) = s0 :: rest :=
      sortByCoord_of_sorted _ (hso.imp (fun hlt => le_of_lt hlt))
    have hsort_all : sortByCoord (s0 :: (rest ++ newSources)) = s0 :: (rest ++ newSources) :=
      sortByCoord_of_sorted _ (hsorted'.imp (fun hlt => le_of_lt hlt))
    have hishape : c.ishape = s0.ishape := by rw [hceq]
    have hdtype : c.dtype = s0.dtype := by rw [hceq]
    have hentries : c.entries = numberFrom 0 (chunkEntries (s0 :: rest)) := by
      rw [hceq]
      show numberFrom 0 (chunkEntries (sortByCoord (s0 :: rest))) = _
      rw [hsort_orig]
    by_cases hm2 : ∀ s ∈ newSources, s.ishape = c.ishape ∧ s.dtype = c.dtype
    · have hm_all : ∀ s ∈ s0 :: (rest ++ newSources),
          s.ishape = s0.ishape ∧ s.dtype = s0.dtype := by
        intro s hs
        rcases List.mem_cons.mp hs with he | hmem
        · rw [he]
          exact ⟨rfl, rfl⟩
        · rcases List.mem_append.mp hmem with hr | hn
          · exact hm s (List.mem_cons_of_mem _ hr)
          · rcases hm2 s hn with ⟨ha, hb⟩
            exact ⟨ha.trans hishape, hb.trans hdtype⟩
      have happ : MultiZarrToZarr.append newSources c
          = Except.ok (⟨c.ishape, c.dtype, c.entries ++
              numberFrom (startIdx c.entries) (chunkEntries (sortByCoord newSources))⟩
              : Combined) := by
        unfold MultiZarrToZarr.append
        rw [if_pos hm2, if_pos hnd_new]
      rw [happ, List.cons_append]
      simp only [MultiZarrToZarr.combine]
      rw [if_pos hm_all, if_pos hnd_all, hsort_new, hsort_all, hentries, startIdx_numberFrom,
          hishape, hdtype]
      rw [show (s0 :: (rest ++ newSources)) = (s0 :: rest) ++ newSources from rfl,
          chunkEntries_append, numberFrom_append, Nat.zero_add]
    · have hnall : ¬ ∀ s ∈ s0 :: (rest ++ newSources),
          s.ishape = s0.ishape ∧ s.dtype = s0.dtype := by
        intro hall
        apply hm2
        intro s hs
        have hs' : s ∈ s0 :: (rest ++ newSources) :=
          List.mem_cons_of_mem _ (List.mem_append.mpr (Or.inr hs))
        rcases hall s hs' with ⟨ha, hb⟩
        exact ⟨ha.trans hishape.symm, hb.trans hdtype.symm⟩
      unfold MultiZarrToZarr.append
      rw [if_neg hm2, List.cons_append]
      simp only [MultiZarrToZarr.combine]
      rw [if_neg hnall]

/-- Witness for the amended C1 at a coordinate-ordered pair of singleton
batches. -/
theorem append_combine_split_witness :
    (List.Pairwise (fun a b : Source => a.coord < b.coord)
      ([⟨1, [1], 7, [RefVal.inline [0]]⟩] ++ [⟨2, [1], 7, [RefVal.inline [4]]⟩])) ∧
    (MultiZarrToZarr.combine [⟨1, [1], 7, [RefVal.inline [0]]⟩]
      = .ok ⟨[1], 7, [(0, 1, RefVal.inline [0])]⟩) ∧
    (MultiZarrToZarr.append [⟨2, [1], 7, [RefVal.inline [4]]⟩]
        ⟨[1], 7, [(0, 1, RefVal.inline [0])]⟩
      = MultiZarrToZarr.combine
          ([⟨1, [1], 7, [RefVal.inline [0]]⟩] ++ [⟨2, [1], 7, [RefVal.inline [4]]⟩])) :=
  ⟨by decide, by decide,
    append_combine_split [⟨1, [1], 7, [RefVal.inline [0]]⟩] [⟨2, [1], 7, [RefVal.inline [4]]⟩]
      ⟨[1], 7, [(0, 1, RefVal.inline [0])]⟩ (by decide) (by decide)⟩

/-- Counterexample for C2: the appending notebook persists the combined
index with a truncating write, so a write of the new serialization
interrupted after two bytes leaves a file equal to neither the prior
contents nor the appended contents. -/
theorem append_write_not_atomic :
    writeFileInterrupted [1, 2, 3] [7, 8, 9, 10] 2 ≠ [1, 2, 3] ∧
    writeFileInterrupted [1, 2, 3] [7, 8, 9, 10] 2 ≠ [7, 8, 9, 10] := by
  decide

/-- C2 amended: after an append whose truncate-then-write persistence step
fails partway through, the file on disk holds an initial segment of the
fully appended serialized state, possibly empty or truncated and in general
equal to neither the prior nor the appended state; no byte of the prior
state survives, and atomicity does not hold. -/
theorem append_write_initial_segment (priorContents newContents : List Nat) (k : Nat) :
    ∃ tail, writeFileInterrupted priorContents newContents k ++ tail = newContents :=
  ⟨newContents.drop k, List.take_append_drop k newContents⟩

/-- C6: flushing a lazy record store twice with no intervening writes is
idempotent: the partitions, the manifest and the whole store state after the
second flush equal those after the first. -/
theorem flush_idempotent (st : LazyReferenceMapper) : st.flush.flush = st.flush := rfl

/-- Inserting into one partition leaves the lookup of every other partition
unchanged. -/
theorem partLookup_partInsert_ne (parts : List (Nat × List StoreEntry)) (q p : Nat)
    (e : StoreEntry) (h : q ≠ p) :
    partLookup (partInsert parts q e) p = partLookup parts p := by
  induction parts with
  | nil =>
    rw [partInsert, partLookup, partLookup, if_neg h]
    rfl
  | cons pe rest ih =>
    obtain ⟨q', es⟩ := pe
    by_cases hq : q' = q
    · have hq'p : q' ≠ p := fun he => h (hq.symm.trans he)
      rw [partInsert, if_pos hq, partLookup, if_neg hq'p, partLookup, if_neg hq'p]
    · rw [partInsert, if_neg hq]
      by_cases hp : q' = p
      · rw [partLookup, if_pos hp, partLookup, if_pos hp]
      · rw [partLookup, if_neg hp, partLookup, if_neg hp, ih]

/-- Folding buffered writes whose target partitions all differ from `p`
leaves the lookup of partition `p` unchanged. -/
theorem partLookup_foldl_untouched (rs p : Nat) (buf : List StoreEntry) :
    ∀ parts, (∀ e ∈ buf, e.1 / rs ≠ p) →
      partLookup (buf.foldl (fun parts e => partInsert parts (e.1 / rs) e) parts) p
        = partLookup parts p := by
  induction buf with
  | nil => intro parts _; rfl
  | cons e es ih =>
    intro parts hb
    rw [List.foldl_cons, ih _ (fun x hx => hb x (List.mem_cons_of_mem _ hx))]
    exact partLookup_partInsert_ne parts (e.1 / rs) p e (hb e (List.mem_cons_self e es))

/-- C7: when the records buffered for an append all carry chunk indices at
or beyond `n`, flushing rewrites only the partitions intersecting that
range: every partition lying wholly before index `n` is left unmodified. -/
theorem flush_preserves_untouched_partitions (st : LazyReferenceMapper) (p n : Nat)
    (hrs : 0 < st.recordSize)
    (hbuf : ∀ e ∈ st.buffered, n ≤ e.1)
    (hp : (p + 1) * st.recordSize ≤ n) :
    partLookup st.flush.partitions p = partLookup st.partitions p := by
  have hne : ∀ e ∈ st.buffered, e.1 / st.recordSize ≠ p := by
    intro e he
    have h1 : (p + 1) * st.recordSize ≤ e.1 := le_trans hp (hbuf e he)
    have h2 : p + 1 ≤ e.1 / st.recordSize := (Nat.le_div_iff_mul_le hrs).mpr h1
    omega
  show partLookup (st.buffered.foldl
      (fun parts e => partInsert parts (e.1 / st.recordSize) e) st.partitions) p
    = partLookup st.partitions p
  exact partLookup_foldl_untouched st.recordSize p st.buffered st.partitions hne

/-- Witness for C7: a store with record size two, one stored partition and
one buffered record at chunk index four keeps partition zero untouched by
the flush. -/
theorem flush_preserves_untouched_partitions_witness :
    (0 < (⟨['r'], 2, [(0, [(0, 5, RefVal.inline [1])])], [0],
        [(4, 9, RefVal.inline [2])]⟩ : LazyReferenceMapper).recordSize) ∧
    (∀ e ∈ (⟨['r'], 2, [(0, [(0, 5, RefVal.inline [1])])], [0],
        [(4, 9, RefVal.inline [2])]⟩ : LazyReferenceMapper).buffered, 4 ≤ e.1) ∧
    ((0 + 1) * (⟨['r'], 2, [(0, [(0, 5, RefVal.inline [1])])], [0],
        [(4, 9, RefVal.inline [2])]⟩ : LazyReferenceMapper).recordSize ≤ 4) ∧
    (partLookup (⟨['r'], 2, [(0, [(0, 5, RefVal.inline [1])])], [0],
        [(4, 9, RefVal.inline [2])]⟩ : LazyReferenceMapper).flush.partitions 0
      = partLookup (⟨['r'], 2, [(0, [(0, 5, RefVal.inline [1])])], [0],
        [(4, 9, RefVal.inline [2])]⟩ : LazyReferenceMapper).partitions 0) :=
  ⟨by decide, by decide, by decide,
    flush_preserves_untouched_partitions
      ⟨['r'], 2, [(0, [(0, 5, RefVal.inline [1])])], [0], [(4, 9, RefVal.inline [2])]⟩
      0 4 (by decide) (by decide) (by decide)⟩

/-- Writing a binding and looking it up at the same path returns the written
value. -/
theorem fsLookup_fsWrite {α : Type} (fs : List (List Char × α)) (p : List Char) (v : α) :
    fsLookup (fsWrite fs p v) p = some v := by
  rw [fsWrite, fsLookup, if_pos rfl]

/-- C9: the single-source translation step is deterministic: for a fixed
remote file and the fixed inlining threshold, two runs of
generate_json_reference from any two local states write the same
dataset-level index to the same output path. -/
theorem generate_json_reference_deterministic
    (remote : List (List Char × SourceFile)) (fil output_dir : List Char)
    (fs1 fs2 : List (List Char × Source)) (infile : SourceFile)
    (h : fsLookup remote fil = some infile) :
    ∃ out1 out2 p,
      generate_json_reference remote fil output_dir fs1 = some (out1, p) ∧
      generate_json_reference remote fil output_dir fs2 = some (out2, p) ∧
      fsLookup out1 p = fsLookup out2 p := by
  refine ⟨fsWrite fs1
      (output_dir ++ ('/' :: (pyStrip dotNC (pyLast (pySplit '/' fil)) ++ dotJson)))
      (SingleHdf5ToZarr.translate fil infile 300),
    fsWrite fs2
      (output_dir ++ ('/' :: (pyStrip dotNC (pyLast (pySplit '/' fil)) ++ dotJson)))
      (SingleHdf5ToZarr.translate fil infile 300),
    output_dir ++ ('/' :: (pyStrip dotNC (pyLast (pySplit '/' fil)) ++ dotJson)),
    ?_, ?_, ?_⟩
  · unfold generate_json_reference
    rw [h]
  · unfold generate_json_reference
    rw [h]
  · rw [fsLookup_fsWrite, fsLookup_fsWrite]

/-- Witness for C9 at a concrete one-file remote store and two different
local states. -/
theorem generate_json_reference_deterministic_witness :
    (fsLookup [(['a'], (⟨2, [1], 7, [[1, 2, 3]]⟩ : SourceFile))] ['a']
      = some ⟨2, [1], 7, [[1, 2, 3]]⟩) ∧
    (∃ out1 out2 p,
      generate_json_reference [(['a'], ⟨2, [1], 7, [[1, 2, 3]]⟩)] ['a'] ['d'] [] = some (out1, p) ∧
      generate_json_reference [(['a'], ⟨2, [1], 7, [[1, 2, 3]]⟩)] ['a'] ['d']
          [(['x'], ⟨0, [1], 7, []⟩)] = some (out2, p) ∧
      fsLookup out1 p = fsLookup out2 p) :=
  ⟨by decide,
    generate_json_reference_deterministic [(['a'], ⟨2, [1], 7, [[1, 2, 3]]⟩)] ['a'] ['d']
      [] [(['x'], ⟨0, [1], 7, []⟩)] ⟨2, [1], 7, [[1, 2, 3]]⟩ (by decide)⟩
